import Mathlib

/-!
Verification of the GitSwitch specification against a shallow embedding of the
relevant Rust sources (`src/ssh.rs`, `src/config.rs`, `src/commands.rs`,
`src/validation.rs`, `src/detection.rs`, `src/repository.rs`).

File contents are modelled as lists of characters (`List Char`), exactly the
character sequences Rust string slices denote.  Rust's line iterator,
substring search, trimming and prefix tests are re-implemented as executable
Lean functions that mirror the standard-library semantics used by the code.
External effects (filesystem, process spawning, the `email_address` crate)
are modelled as oracle parameters; all decision logic is translated from the
source.  `HashMap` iteration is modelled by association-list order, which
makes the (unspecified) iteration order of the Rust map explicit.
-/

namespace GitSwitch

/-- Boolean prefix test on character lists, the model of Rust
`str::starts_with` for string patterns. -/
def isPreSeq : List Char → List Char → Bool
  | [], _ => true
  | _ :: _, [] => false
  | a :: s, b :: t => a == b && isPreSeq s t

/-- Boolean substring test, the model of Rust `str::contains` for string
patterns: some suffix of the haystack starts with the pattern. -/
def containsSeq (pat : List Char) : List Char → Bool
  | [] => pat.isEmpty
  | c :: rest => isPreSeq pat (c :: rest) || containsSeq pat rest

/-- Model of Rust `str::trim` (whitespace removed from both ends; the code
only ever meets ASCII whitespace, which `Char.isWhitespace` covers). -/
def trimC (l : List Char) : List Char :=
  ((l.dropWhile Char.isWhitespace).reverse.dropWhile Char.isWhitespace).reverse

/-- Split a character list at every newline character; every piece is
returned, including the (possibly empty) piece after the last `'\n'`.
This is the model of Rust `str::split('\n')`. -/
def splitNL : List Char → List (List Char)
  | [] => [[]]
  | c :: rest =>
    if c = '\n' then [] :: splitNL rest
    else
      match splitNL rest with
      | [] => [[c]]
      | h :: t => (c :: h) :: t

/-- Drop one trailing carriage return, as Rust `lines()` does for every line
that was terminated by a newline. -/
def stripCR (l : List Char) : List Char :=
  if l.getLast? = some '\r' then l.dropLast else l

/-- Post-processing of `splitNL` pieces performed by Rust `str::lines`:
every newline-terminated piece loses a trailing `'\r'`, and the final
piece (the one not terminated by a newline) is dropped when empty and kept
verbatim otherwise. -/
def finishLines : List (List Char) → List (List Char)
  | [] => []
  | [last] => if last = [] then [] else [last]
  | p :: rest => stripCR p :: finishLines rest

/-- Model of Rust `str::lines`. -/
def linesOf (content : List Char) : List (List Char) :=
  finishLines (splitNL content)

/-- Model of `Vec::join("\n")`: concatenate lines with a single newline
separator and no trailing newline. -/
def joinNL : List (List Char) → List Char
  | [] => []
  | [l] => l
  | l :: rest => l ++ '\n' :: joinNL rest

/-- Model of `str::replace(" ", "_")` (single-character pattern and
replacement, hence a character map). -/
def replaceSpaces (s : List Char) : List Char :=
  s.map fun c => if c = ' ' then '_' else c

/-- Model of `str::to_lowercase` on the ASCII range this code manipulates
(account names, provider tags and URLs); `Char.toLower` lowercases exactly
the ASCII letters. -/
def toLowerChars (s : List Char) : List Char :=
  s.map Char.toLower

/-! ### src/ssh.rs -/

/-- Host alias derived in `update_ssh_config`:
`format!("github.com-{}", account_name.replace(" ", "_").to_lowercase())`. -/
def host_alias (account_name : String) : List Char :=
  "github.com-".data ++ toLowerChars (replaceSpaces account_name.data)

/-- The stanza appended by `update_ssh_config` (its `config_entry` string). -/
def config_entry (account_name identity_file : String) : List Char :=
  "\n# ".data ++ account_name.data
    ++ " GitHub Account (git-switch managed)\nHost ".data
    ++ host_alias account_name
    ++ "\n  HostName github.com\n  User git\n  IdentityFile ".data
    ++ identity_file.data
    ++ "\n  IdentitiesOnly yes\n".data

/-- Model of `update_ssh_config` acting on the current content of
`~/.ssh/config` (a missing file reads as the empty content): if the content
already contains `Host <alias>` as a substring the function returns with no
change, otherwise the managed stanza is appended. -/
def update_ssh_config (account_name identity_file : String) (content : List Char) :
    List Char :=
  if containsSeq ("Host ".data ++ host_alias account_name) content then content
  else content ++ config_entry account_name identity_file

/-- The `host_marker` string of `remove_ssh_config_entry`. -/
def host_marker (account_name : String) : List Char :=
  "Host github.com-".data ++ toLowerChars (replaceSpaces account_name.data)

/-- The `comment_marker` string of `remove_ssh_config_entry`. -/
def comment_marker (account_name : String) : List Char :=
  "# ".data ++ account_name.data ++ " GitHub Account (git-switch managed)".data

/-- First branch condition of the removal loop: the trimmed line equals the
managed comment marker or starts with the `Host github.com-…` marker. -/
def isBlockStart (account_name : String) (line : List Char) : Bool :=
  trimC line == comment_marker account_name
    || isPreSeq (host_marker account_name) (trimC line)

/-- Second branch condition of the removal loop: the trimmed line starts a
new `Host ` declaration or a top-level `# ` comment. -/
def isBoundary (line : List Char) : Bool :=
  isPreSeq "Host ".data (trimC line) || isPreSeq "# ".data (trimC line)

/-- The line-scanning loop of `remove_ssh_config_entry`, with the
`in_matching_block` flag made explicit. -/
def removeLoop (account_name : String) : Bool → List (List Char) → List (List Char)
  | _, [] => []
  | inb, line :: rest =>
    if isBlockStart account_name line then
      removeLoop account_name true rest
    else if inb && isBoundary line then
      line :: removeLoop account_name false rest
    else if !inb then
      line :: removeLoop account_name inb rest
    else
      removeLoop account_name inb rest

/-- Model of `remove_ssh_config_entry` on the file content (a missing file is
an early successful return and is not modelled): rebuild the kept lines with
`join("\n")` and write the result only when it differs from the original
up to `trim`, otherwise leave the file as it was. -/
def remove_ssh_config_entry (account_name : String) (content : List Char) :
    List Char :=
  if trimC (joinNL (removeLoop account_name false (linesOf content))) = trimC content
  then content
  else joinNL (removeLoop account_name false (linesOf content))

/-! ### Bridging lemmas between the executable scanners and list predicates -/

theorem isPreSeq_iff {s t : List Char} : isPreSeq s t = true ↔ s <+: t := by
  induction s generalizing t with
  | nil => simp [isPreSeq]
  | cons a s ih =>
    cases t with
    | nil => simp [isPreSeq]
    | cons b t => simp [isPreSeq, List.cons_prefix_cons, ih]

theorem containsSeq_iff {pat l : List Char} : containsSeq pat l = true ↔ pat <:+: l := by
  induction l with
  | nil => simp [containsSeq, List.isEmpty_iff]
  | cons c rest ih => simp [containsSeq, isPreSeq_iff, ih, List.infix_cons_iff]

theorem containsSeq_append_right {pat e : List Char} (h : pat <:+: e) (c : List Char) :
    containsSeq pat (c ++ e) = true :=
  containsSeq_iff.mpr (h.trans ⟨c, [], by simp⟩)

theorem splitNL_ne_nil (c : List Char) : splitNL c ≠ [] := by
  match c with
  | [] => simp [splitNL]
  | ch :: rest =>
    simp only [splitNL]
    split
    · simp
    · split <;> simp

theorem joinNL_splitNL (c : List Char) : joinNL (splitNL c) = c := by
  induction c with
  | nil => rfl
  | cons ch rest ih =>
    obtain ⟨p, ps, hps⟩ : ∃ p ps, splitNL rest = p :: ps := by
      cases hsp : splitNL rest with
      | nil => exact absurd hsp (splitNL_ne_nil rest)
      | cons p ps => exact ⟨p, ps, rfl⟩
    by_cases h : ch = '\n'
    · subst h
      rw [show splitNL ('\n' :: rest) = [] :: splitNL rest from by simp [splitNL]]
      rw [hps] at ih ⊢
      simpa [joinNL] using ih
    · rw [show splitNL (ch :: rest) = (ch :: p) :: ps from by simp [splitNL, h, hps]]
      rw [hps] at ih
      cases ps with
      | nil => simpa [joinNL] using ih
      | cons q t =>
        have h1 : joinNL ((ch :: p) :: q :: t) = ch :: joinNL (p :: q :: t) := by
          simp [joinNL]
        rw [h1, ih]

theorem joinNL_mem_sub {l : List Char} {L : List (List Char)} (h : l ∈ L) :
    l <:+: joinNL L := by
  induction L with
  | nil => cases h
  | cons p ps ih =>
    rcases List.mem_cons.mp h with rfl | h'
    · cases ps with
      | nil => exact List.infix_rfl
      | cons q t => exact ⟨[], '\n' :: joinNL (q :: t), by simp [joinNL]⟩
    · cases ps with
      | nil => cases h'
      | cons q t =>
        have h1 : joinNL (p :: q :: t) = p ++ '\n' :: joinNL (q :: t) := by simp [joinNL]
        rw [h1]
        exact (ih h').trans ⟨p ++ ['\n'], [], by simp⟩

theorem stripCR_pre (p : List Char) : stripCR p <+: p := by
  unfold stripCR
  split
  · rename_i hcr
    have hne : p ≠ [] := by intro h; subst h; simp at hcr
    exact ⟨[p.getLast hne], List.dropLast_append_getLast hne⟩
  · exact List.prefix_rfl

theorem mem_finishLines {l : List Char} :
    ∀ {ps : List (List Char)}, l ∈ finishLines ps → ∃ p ∈ ps, l <+: p
  | [], h => by cases h
  | [last], h => by
    by_cases hl : last = []
    · simp [finishLines, hl] at h
    · simp [finishLines, hl] at h
      exact ⟨last, by simp, h ▸ List.prefix_rfl⟩
  | p :: q :: t, h => by
    rcases List.mem_cons.mp h with rfl | h'
    · exact ⟨p, by simp, stripCR_pre p⟩
    · obtain ⟨r, hr, hpre⟩ := mem_finishLines h'
      exact ⟨r, List.mem_cons_of_mem _ hr, hpre⟩

theorem linesOf_mem_sub {l c : List Char} (h : l ∈ linesOf c) : l <:+: c := by
  obtain ⟨p, hp, hpre⟩ := mem_finishLines h
  have h1 : p <:+: c := joinNL_splitNL c ▸ joinNL_mem_sub hp
  exact hpre.isInfix.trans h1

theorem host_line_infix_entry (a i : String) :
    ("Host ".data ++ host_alias a) <:+: config_entry a i := by
  refine ⟨"\n# ".data ++ a.data ++ " GitHub Account (git-switch managed)\n".data,
    "\n  HostName github.com\n  User git\n  IdentityFile ".data ++ i.data
      ++ "\n  IdentitiesOnly yes\n".data, ?_⟩
  have h : " GitHub Account (git-switch managed)\nHost ".data
      = " GitHub Account (git-switch managed)\n".data ++ "Host ".data := by decide
  simp [config_entry, h, List.append_assoc]

/-! ### Structure of the removal loop -/

theorem removeLoop_cons_start {a : String} {line : List Char} (inb : Bool)
    (rest : List (List Char)) (h : isBlockStart a line = true) :
    removeLoop a inb (line :: rest) = removeLoop a true rest := by
  simp [removeLoop, h]

theorem removeLoop_cons_boundary {a : String} {line : List Char}
    (rest : List (List Char)) (h1 : isBlockStart a line = false)
    (h2 : isBoundary line = true) :
    removeLoop a true (line :: rest) = line :: removeLoop a false rest := by
  simp [removeLoop, h1, h2]

theorem removeLoop_cons_keep {a : String} {line : List Char}
    (rest : List (List Char)) (h1 : isBlockStart a line = false) :
    removeLoop a false (line :: rest) = line :: removeLoop a false rest := by
  simp [removeLoop, h1]

theorem removeLoop_cons_interior {a : String} {line : List Char}
    (rest : List (List Char)) (h1 : isBlockStart a line = false)
    (h2 : isBoundary line = false) :
    removeLoop a true (line :: rest) = removeLoop a true rest := by
  simp [removeLoop, h1, h2]

theorem removeLoop_front {a : String} {P : List (List Char)}
    (X : List (List Char)) (hP : ∀ l ∈ P, isBlockStart a l = false) :
    removeLoop a false (P ++ X) = P ++ removeLoop a false X := by
  induction P with
  | nil => simp
  | cons p P ih =>
    rw [List.cons_append, removeLoop_cons_keep _ (hP p (by simp)),
      ih fun l hl => hP l (List.mem_cons_of_mem _ hl)]
    simp

theorem removeLoop_id {a : String} {X : List (List Char)}
    (hX : ∀ l ∈ X, isBlockStart a l = false) :
    removeLoop a false X = X := by
  have h := removeLoop_front ([] : List (List Char)) hX
  simpa [removeLoop] using h

theorem removeLoop_skip {a : String} {B : List (List Char)}
    (X : List (List Char))
    (hB : ∀ l ∈ B, isBlockStart a l = true ∨ isBoundary l = false) :
    removeLoop a true (B ++ X) = removeLoop a true X := by
  induction B with
  | nil => simp
  | cons b B ih =>
    have hrest := ih fun l hl => hB l (List.mem_cons_of_mem _ hl)
    rcases hB b (by simp) with hb | hb
    · rw [List.cons_append, removeLoop_cons_start _ _ hb, hrest]
    · by_cases hs : isBlockStart a b = true
      · rw [List.cons_append, removeLoop_cons_start _ _ hs, hrest]
      · rw [List.cons_append,
          removeLoop_cons_interior _ (Bool.not_eq_true _ ▸ hs) hb, hrest]

theorem removeLoop_subset {a : String} :
    ∀ {X : List (List Char)} (inb : Bool) {l : List Char},
      l ∈ removeLoop a inb X → l ∈ X
  | [], _, _, h => by simp [removeLoop] at h
  | x :: X, inb, l, h => by
    by_cases h1 : isBlockStart a x = true
    · rw [removeLoop_cons_start _ _ h1] at h
      exact List.mem_cons_of_mem _ (removeLoop_subset true h)
    · have h1' : isBlockStart a x = false := Bool.not_eq_true _ ▸ h1
      cases inb with
      | false =>
        rw [removeLoop_cons_keep _ h1'] at h
        rcases List.mem_cons.mp h with rfl | h'
        · simp
        · exact List.mem_cons_of_mem _ (removeLoop_subset false h')
      | true =>
        by_cases h2 : isBoundary x = true
        · rw [removeLoop_cons_boundary _ h1' h2] at h
          rcases List.mem_cons.mp h with rfl | h'
          · simp
          · exact List.mem_cons_of_mem _ (removeLoop_subset false h')
        · rw [removeLoop_cons_interior _ h1' (Bool.not_eq_true _ ▸ h2)] at h
          exact List.mem_cons_of_mem _ (removeLoop_subset true h)

theorem removeLoop_clean {a : String} :
    ∀ {X : List (List Char)} (inb : Bool) {l : List Char},
      l ∈ removeLoop a inb X → isBlockStart a l = false
  | [], _, _, h => by simp [removeLoop] at h
  | x :: X, inb, l, h => by
    by_cases h1 : isBlockStart a x = true
    · rw [removeLoop_cons_start _ _ h1] at h
      exact removeLoop_clean true h
    · have h1' : isBlockStart a x = false := Bool.not_eq_true _ ▸ h1
      cases inb with
      | false =>
        rw [removeLoop_cons_keep _ h1'] at h
        rcases List.mem_cons.mp h with rfl | h'
        · exact h1'
        · exact removeLoop_clean false h'
      | true =>
        by_cases h2 : isBoundary x = true
        · rw [removeLoop_cons_boundary _ h1' h2] at h
          rcases List.mem_cons.mp h with rfl | h'
          · exact h1'
          · exact removeLoop_clean false h'
        · rw [removeLoop_cons_interior _ h1' (Bool.not_eq_true _ ▸ h2)] at h
          exact removeLoop_clean true h

/-! ### Structure of the line splitter -/

theorem not_nl_mem_splitNL :
    ∀ {c : List Char} {p : List Char}, p ∈ splitNL c → '\n' ∉ p
  | [], p, h => by
    simp [splitNL] at h
    simp [h]
  | ch :: rest, p, h => by
    by_cases hch : ch = '\n'
    · subst hch
      rw [show splitNL ('\n' :: rest) = [] :: splitNL rest from by simp [splitNL]] at h
      rcases List.mem_cons.mp h with rfl | h'
      · simp
      · exact not_nl_mem_splitNL h'
    · obtain ⟨q, ps, hps⟩ : ∃ q ps, splitNL rest = q :: ps := by
        cases hsp : splitNL rest with
        | nil => exact absurd hsp (splitNL_ne_nil rest)
        | cons q ps => exact ⟨q, ps, rfl⟩
      rw [show splitNL (ch :: rest) = (ch :: q) :: ps from by simp [splitNL, hch, hps]] at h
      rcases List.mem_cons.mp h with rfl | h'
      · intro hmem
        rcases List.mem_cons.mp hmem with h2 | h2
        · exact hch h2.symm
        · exact not_nl_mem_splitNL (hps ▸ List.mem_cons_self q ps) h2
      · exact not_nl_mem_splitNL (hps ▸ List.mem_cons_of_mem _ h')

theorem splitNL_single {l : List Char} (h : '\n' ∉ l) : splitNL l = [l] := by
  induction l with
  | nil => rfl
  | cons c t ih =>
    have hc : ¬ c = '\n' := fun hc => h (hc ▸ List.mem_cons_self c t)
    simp [splitNL, hc, ih fun hm => h (List.mem_cons_of_mem _ hm)]

theorem splitNL_append_nl {l : List Char} (rest : List Char) (h : '\n' ∉ l) :
    splitNL (l ++ '\n' :: rest) = l :: splitNL rest := by
  induction l with
  | nil => simp [splitNL]
  | cons c t ih =>
    have hc : ¬ c = '\n' := fun hc => h (hc ▸ List.mem_cons_self c t)
    simp [splitNL, hc, ih fun hm => h (List.mem_cons_of_mem _ hm)]

theorem splitNL_joinNL :
    ∀ {L : List (List Char)}, L ≠ [] → (∀ l ∈ L, '\n' ∉ l) →
      splitNL (joinNL L) = L
  | [], hne, _ => absurd rfl hne
  | [l], _, h => by simpa [joinNL] using splitNL_single (h l (by simp))
  | l :: q :: t, _, h => by
    have h1 : joinNL (l :: q :: t) = l ++ '\n' :: joinNL (q :: t) := by simp [joinNL]
    rw [h1, splitNL_append_nl _ (h l (by simp)),
      splitNL_joinNL (by simp) fun x hx => h x (List.mem_cons_of_mem _ hx)]

theorem getLast?_mem_of_eq {α : Type} {l : List α} {x : α}
    (h : l.getLast? = some x) : x ∈ l := by
  cases l with
  | nil => simp at h
  | cons a t =>
    rw [List.getLast?_eq_getLast _ (by simp)] at h
    exact (Option.some_inj.mp h) ▸ List.getLast_mem _

theorem finishLines_eq :
    ∀ {ps : List (List Char)}, (∀ p ∈ ps, p.getLast? ≠ some '\r') →
      finishLines ps = if ps.getLast? = some [] then ps.dropLast else ps
  | [], _ => by simp [finishLines]
  | [last], _ => by
    by_cases hl : last = []
    · subst hl
      simp [finishLines]
    · simp [finishLines, hl]
  | p :: q :: t, h => by
    have hp : stripCR p = p := by
      unfold stripCR
      rw [if_neg (h p (by simp))]
    have hrec := finishLines_eq
      fun r hr => h r (List.mem_cons_of_mem _ hr)
    show stripCR p :: finishLines (q :: t) = _
    rw [hp, hrec]
    by_cases hc : (q :: t).getLast? = some ([] : List Char)
    · rw [if_pos hc, if_pos (by simpa using hc),
        show (p :: q :: t).dropLast = p :: (q :: t).dropLast from
          List.dropLast_cons_of_ne_nil (by simp)]
    · rw [if_neg hc, if_neg (by simpa using hc)]

/-! ### Whitespace trimming and visible-character counting -/

/-- Predicate for characters that survive `trim`: non-whitespace. -/
def inkP (c : Char) : Bool := !c.isWhitespace

theorem countP_dropWhile_ws (l : List Char) :
    (l.dropWhile Char.isWhitespace).countP inkP = l.countP inkP := by
  induction l with
  | nil => rfl
  | cons c t ih =>
    by_cases hc : c.isWhitespace = true
    · rw [List.dropWhile_cons_of_pos hc, ih, List.countP_cons]
      simp [inkP, hc]
    · rw [List.dropWhile_cons_of_neg (by simp [hc])]

theorem countP_trimC (l : List Char) : (trimC l).countP inkP = l.countP inkP := by
  unfold trimC
  rw [List.countP_reverse, countP_dropWhile_ws, List.countP_reverse,
    countP_dropWhile_ws]

theorem countP_joinNL :
    ∀ L : List (List Char),
      (joinNL L).countP inkP = (L.map (List.countP inkP)).sum
  | [] => rfl
  | [l] => by simp [joinNL]
  | l :: q :: t => by
    have h1 : joinNL (l :: q :: t) = l ++ '\n' :: joinNL (q :: t) := by simp [joinNL]
    rw [h1, List.countP_append, List.countP_cons]
    rw [countP_joinNL (q :: t)]
    simp [inkP]

theorem blockstart_ink {a : String} {m : List Char}
    (hm : isBlockStart a m = true) : 0 < m.countP inkP := by
  rw [← countP_trimC]
  have hm' : trimC m = comment_marker a
      ∨ isPreSeq (host_marker a) (trimC m) = true := by
    simpa [isBlockStart] using hm
  rcases hm' with h | h
  · rw [h]
    refine List.countP_pos_iff.mpr ⟨'#', ?_, by decide⟩
    unfold comment_marker
    exact List.mem_append.mpr (Or.inl (List.mem_append.mpr (Or.inl (by decide))))
  · have hpre : host_marker a <+: trimC m := isPreSeq_iff.mp h
    refine List.countP_pos_iff.mpr ⟨'H', ?_, by decide⟩
    refine hpre.sublist.subset ?_
    unfold host_marker
    exact List.mem_append.mpr (Or.inl (by decide))

theorem trimC_append_ws {w : Char} (hw : w.isWhitespace = true) (x : List Char) :
    trimC (x ++ [w]) = trimC x := by
  unfold trimC
  rw [List.dropWhile_append]
  by_cases he : (x.dropWhile Char.isWhitespace).isEmpty = true
  · rw [if_pos he, List.isEmpty_iff.mp he]
    simp [hw]
  · rw [if_neg he]
    simp [hw]

theorem joinNL_append_nil :
    ∀ {X : List (List Char)}, X ≠ [] → joinNL (X ++ [[]]) = joinNL X ++ ['\n']
  | [], hne => absurd rfl hne
  | [x], _ => by simp [joinNL]
  | x :: y :: t, _ => by
    have h1 : joinNL (x :: y :: t) = x ++ '\n' :: joinNL (y :: t) := by simp [joinNL]
    have h2 : joinNL ((x :: y :: t) ++ [[]])
        = x ++ '\n' :: joinNL ((y :: t) ++ [[]]) := by simp [joinNL]
    rw [h2, joinNL_append_nil (by simp), h1]
    simp

theorem eq_dropLast_append_of_getLast? {α : Type} {l : List α} {x : α}
    (h : l.getLast? = some x) : l = l.dropLast ++ [x] := by
  cases l with
  | nil => simp at h
  | cons a t =>
    rw [List.getLast?_eq_getLast _ (by simp)] at h
    rw [← Option.some_inj.mp h]
    exact (List.dropLast_append_getLast (by simp)).symm

theorem mem_char_joinNL :
    ∀ {L : List (List Char)} {x : Char}, x ∈ joinNL L →
      x = '\n' ∨ ∃ l ∈ L, x ∈ l
  | [], x, h => by simp [joinNL] at h
  | [l], x, h => Or.inr ⟨l, by simp, h⟩
  | l :: q :: t, x, h => by
    have h1 : joinNL (l :: q :: t) = l ++ '\n' :: joinNL (q :: t) := by simp [joinNL]
    rw [h1] at h
    rcases List.mem_append.mp h with h' | h'
    · exact Or.inr ⟨l, by simp, h'⟩
    · rcases List.mem_cons.mp h' with rfl | h''
      · exact Or.inl rfl
      · rcases mem_char_joinNL h'' with h3 | ⟨r, hr, hxr⟩
        · exact Or.inl h3
        · exact Or.inr ⟨r, List.mem_cons_of_mem _ hr, hxr⟩

theorem trim_joinNL_linesOf {c : List Char} (hcr : '\r' ∉ c) :
    trimC (joinNL (linesOf c)) = trimC c := by
  have hmem : ∀ p ∈ splitNL c, ¬ p.getLast? = some '\r' := by
    intro p hp hlast
    have hinf : p <:+: c := joinNL_splitNL c ▸ joinNL_mem_sub hp
    exact hcr (hinf.subset (getLast?_mem_of_eq hlast))
  have hc_eq : c = joinNL (splitNL c) := (joinNL_splitNL c).symm
  unfold linesOf
  rw [finishLines_eq hmem]
  by_cases hc : (splitNL c).getLast? = some ([] : List Char)
  · rw [if_pos hc]
    have hsplit : splitNL c = (splitNL c).dropLast ++ [[]] :=
      eq_dropLast_append_of_getLast? hc
    by_cases hX : (splitNL c).dropLast = []
    · have hce : c = [] := by
        rw [hc_eq]
        nth_rewrite 1 [hsplit]
        rw [hX]
        rfl
      rw [hX, hce]
      rfl
    · have hjoin : c = joinNL ((splitNL c).dropLast) ++ ['\n'] := by
        nth_rewrite 1 [hc_eq]
        nth_rewrite 1 [hsplit]
        exact joinNL_append_nil hX
      nth_rewrite 2 [hjoin]
      rw [trimC_append_ws (by decide)]
  · rw [if_neg hc, joinNL_splitNL]

theorem linesOf_no_nl {c l : List Char} (h : l ∈ linesOf c) : '\n' ∉ l := by
  obtain ⟨p, hp, hpre⟩ := mem_finishLines h
  intro hx
  exact not_nl_mem_splitNL hp (hpre.sublist.subset hx)

theorem linesOf_no_cr {c l : List Char} (hcr : '\r' ∉ c) (h : l ∈ linesOf c) :
    '\r' ∉ l :=
  fun hx => hcr ((linesOf_mem_sub h).subset hx)

theorem linesOf_joinNL {L : List (List Char)} (hnl : ∀ l ∈ L, '\n' ∉ l)
    (hcr : ∀ l ∈ L, ¬ l.getLast? = some '\r')
    (hlast : ¬ L.getLast? = some []) :
    linesOf (joinNL L) = L := by
  cases L with
  | nil => simp [linesOf, joinNL, splitNL, finishLines]
  | cons x X =>
    unfold linesOf
    rw [splitNL_joinNL (by simp) hnl, finishLines_eq hcr, if_neg hlast]

/-- No-op case of the removal: when no line of the file triggers the block
scanner and the file is free of carriage returns, `remove_ssh_config_entry`
returns the content unchanged (the rebuilt text agrees with the original up
to `trim`, so the function takes the no-write path). -/
theorem remove_noop {a : String} {c : List Char} (hcr : '\r' ∉ c)
    (hb : ∀ l ∈ linesOf c, isBlockStart a l = false) :
    remove_ssh_config_entry a c = c := by
  unfold remove_ssh_config_entry
  rw [removeLoop_id hb, if_pos (trim_joinNL_linesOf hcr)]

theorem remove_of_clean_lines {a : String} {L : List (List Char)}
    (hnl : ∀ l ∈ L, '\n' ∉ l) (hcr : ∀ l ∈ L, '\r' ∉ l)
    (hbs : ∀ l ∈ L, isBlockStart a l = false) :
    remove_ssh_config_entry a (joinNL L) = joinNL L := by
  have hcrj : '\r' ∉ joinNL L := by
    intro hx
    rcases mem_char_joinNL hx with h | ⟨l, hl, hxl⟩
    · exact absurd h (by decide)
    · exact hcr l hl hxl
  apply remove_noop hcrj
  cases L with
  | nil => intro l hl; simp [linesOf, splitNL, finishLines, joinNL] at hl
  | cons x X =>
    intro l hl
    unfold linesOf at hl
    rw [splitNL_joinNL (by simp) hnl,
      finishLines_eq (fun p hp hc2 => hcr p hp (getLast?_mem_of_eq hc2))] at hl
    by_cases hval : (x :: X).getLast? = some ([] : List Char)
    · rw [if_pos hval] at hl
      exact hbs l ((List.dropLast_sublist _).subset hl)
    · rw [if_neg hval] at hl
      exact hbs l hl

/-! ### Claim C2: removal deletes exactly the matched span -/

/-- C2 (amended).  For LF-only content without a trailing newline, written as
lines `P ++ [m] ++ B ++ S` where `m` is the only line matching account `a`'s
markers, `B` is block interior (no line starts a new `Host `/`# ` boundary
unless it matches the markers itself) and `S` is empty or starts at a
boundary line, `remove_ssh_config_entry` deletes exactly the span `[m] ++ B`:
the result is precisely the lines `P ++ S` rejoined, so all content before
the block and from the boundary line on is preserved byte-for-byte. -/
theorem ssh_remove_frame (a : String) (P B S : List (List Char)) (m : List Char)
    (hP : ∀ l ∈ P, isBlockStart a l = false)
    (hm : isBlockStart a m = true)
    (hB : ∀ l ∈ B, isBlockStart a l = true ∨ isBoundary l = false)
    (hS : ∀ l ∈ S, isBlockStart a l = false)
    (hS0 : S = [] ∨ ∃ s0 S1, S = s0 :: S1 ∧ isBoundary s0 = true)
    (hnl : ∀ l ∈ P ++ m :: (B ++ S), '\n' ∉ l)
    (hcr : ∀ l ∈ P ++ m :: (B ++ S), ¬ l.getLast? = some '\r')
    (hlast : ¬ (P ++ m :: (B ++ S)).getLast? = some []) :
    remove_ssh_config_entry a (joinNL (P ++ m :: (B ++ S))) = joinNL (P ++ S) := by
  have hlines : linesOf (joinNL (P ++ m :: (B ++ S))) = P ++ m :: (B ++ S) :=
    linesOf_joinNL hnl hcr hlast
  have hloop : removeLoop a false (P ++ m :: (B ++ S)) = P ++ S := by
    rw [removeLoop_front _ hP, removeLoop_cons_start _ _ hm, removeLoop_skip _ hB]
    rcases hS0 with rfl | ⟨s0, S1, rfl, hbd⟩
    · simp [removeLoop]
    · rw [removeLoop_cons_boundary _ (hS s0 (by simp)) hbd,
        removeLoop_id fun l hl => hS l (List.mem_cons_of_mem _ hl)]
  have hcount : (joinNL (P ++ S)).countP inkP
      < (joinNL (P ++ m :: (B ++ S))).countP inkP := by
    rw [countP_joinNL, countP_joinNL]
    simp only [List.map_append, List.sum_append, List.map_cons, List.sum_cons]
    have hmpos := blockstart_ink hm
    omega
  have hne : ¬ trimC (joinNL (P ++ S)) = trimC (joinNL (P ++ m :: (B ++ S))) := by
    intro he
    have h2 := congrArg (List.countP inkP) he
    rw [countP_trimC, countP_trimC] at h2
    omega
  unfold remove_ssh_config_entry
  rw [hlines, hloop, if_neg hne]

/-- Witness for C2 at a concrete three-stanza file. -/
theorem ssh_remove_frame_witness :
    remove_ssh_config_entry "a"
        (joinNL (["# B other account".data, "Host other".data, "  User git".data]
          ++ "# a GitHub Account (git-switch managed)".data
            :: (["Host github.com-a".data, "  HostName github.com".data]
              ++ ["# C another".data, "Host c".data])))
      = joinNL (["# B other account".data, "Host other".data, "  User git".data]
          ++ ["# C another".data, "Host c".data]) := by
  exact ssh_remove_frame "a" _ _ _ _ (by decide) (by decide) (by decide) (by decide)
    (Or.inr ⟨"# C another".data, ["Host c".data], rfl, by decide⟩)
    (by decide) (by decide) (by decide)

/-- C2 counterexample: with a trailing newline in the file, the byte
`'\n'` that follows the last stanza is dropped by the rewrite, so the bytes
after the matched block are not preserved byte-for-byte. -/
theorem ssh_remove_frame_counterexample :
    remove_ssh_config_entry "a"
        ("# a GitHub Account (git-switch managed)\nHost github.com-a\n  HostName github.com\n\nHost other\n  User git\n".data)
      = "Host other\n  User git".data
    ∧ remove_ssh_config_entry "a"
        ("# a GitHub Account (git-switch managed)\nHost github.com-a\n  HostName github.com\n\nHost other\n  User git\n".data)
      ≠ "Host other\n  User git\n".data := by
  exact ⟨by decide, by decide⟩

/-! ### Claim C3: removal of a missing entry -/

/-- C3 (amended).  For carriage-return-free content: if no line matches
account `a`'s markers, `remove_ssh_config_entry` leaves the content
unmodified (and the Rust function returns `Ok`, modelled by totality); and
removal is idempotent, so a second `remove` never changes anything.  (For
content with CRLF line endings the code instead rewrites the whole file with
normalized line endings; see the counterexample.) -/
theorem ssh_remove_missing_noop (a : String) (c : List Char) (hcr : '\r' ∉ c) :
    ((∀ l ∈ linesOf c, isBlockStart a l = false) → remove_ssh_config_entry a c = c)
    ∧ remove_ssh_config_entry a (remove_ssh_config_entry a c)
        = remove_ssh_config_entry a c := by
  refine ⟨fun hb => remove_noop hcr hb, ?_⟩
  by_cases hdiff : trimC (joinNL (removeLoop a false (linesOf c))) = trimC c
  · have h1 : remove_ssh_config_entry a c = c := by
      unfold remove_ssh_config_entry
      rw [if_pos hdiff]
    simp [h1]
  · have h1 : remove_ssh_config_entry a c
        = joinNL (removeLoop a false (linesOf c)) := by
      unfold remove_ssh_config_entry
      rw [if_neg hdiff]
    have hsub : ∀ l ∈ removeLoop a false (linesOf c), l ∈ linesOf c :=
      fun l hl => removeLoop_subset false hl
    rw [h1]
    exact remove_of_clean_lines
      (fun l hl => linesOf_no_nl (hsub l hl))
      (fun l hl => linesOf_no_cr hcr (hsub l hl))
      (fun l hl => removeLoop_clean false hl)

/-- Witness for C3 at a concrete file with no managed entry. -/
theorem ssh_remove_missing_noop_witness :
    remove_ssh_config_entry "work" ("Host x\n  User git".data)
      = "Host x\n  User git".data := by
  exact (ssh_remove_missing_noop "work" ("Host x\n  User git".data) (by decide)).1
    (by decide)

/-- C3 counterexample: a CRLF file with no matching block is still rewritten
by `remove_ssh_config_entry` (line endings are normalized to LF), so the
content is modified even though no entry was removed. -/
theorem ssh_remove_missing_counterexample :
    (∀ l ∈ linesOf ("Host x\r\n  User git\r\n".data),
        isBlockStart "work" l = false)
    ∧ remove_ssh_config_entry "work" ("Host x\r\n  User git\r\n".data)
        ≠ "Host x\r\n  User git\r\n".data := by
  exact ⟨by decide, by decide⟩

/-! ### Claim C1: upsert is idempotent -/

/-- C1.  SSH-stanza upsert is idempotent: if the SSH config content already
contains a `Host <alias>` line for the alias derived from the account name,
`update_ssh_config` leaves the content unchanged; and a second upsert with
the same inputs never changes the result of the first. -/
theorem ssh_upsert_idempotent (a i : String) (c : List Char) :
    (("Host ".data ++ host_alias a) ∈ linesOf c → update_ssh_config a i c = c)
    ∧ update_ssh_config a i (update_ssh_config a i c) = update_ssh_config a i c := by
  constructor
  · intro hline
    have hinf : ("Host ".data ++ host_alias a) <:+: c := linesOf_mem_sub hline
    unfold update_ssh_config
    rw [if_pos (containsSeq_iff.mpr hinf)]
  · by_cases h : containsSeq ("Host ".data ++ host_alias a) c = true
    · unfold update_ssh_config
      rw [if_pos h, if_pos h]
    · unfold update_ssh_config
      rw [if_neg h, if_pos (containsSeq_append_right (host_line_infix_entry a i) c)]

/-- Witness for C1 at a concrete input. -/
theorem ssh_upsert_idempotent_witness :
    ("Host ".data ++ host_alias "work")
        ∈ linesOf ("Host github.com-work\n  User git".data)
    ∧ update_ssh_config "work" "~/k" ("Host github.com-work\n  User git".data)
        = "Host github.com-work\n  User git".data := by
  have h := ssh_upsert_idempotent "work" "~/k" ("Host github.com-work\n  User git".data)
  have hmem : ("Host ".data ++ host_alias "work")
      ∈ linesOf ("Host github.com-work\n  User git".data) := by decide
  exact ⟨hmem, h.1 hmem⟩

/-! ### Shape lemmas for the stanza produced by upsert -/

theorem isPreSeq_refl (l : List Char) : isPreSeq l l = true :=
  isPreSeq_iff.mpr List.prefix_rfl

theorem isPreSeq_head?_ne {s t : List Char} {c d : Char}
    (hs : s.head? = some c) (ht : t.head? = some d) (hne : ¬ c = d) :
    isPreSeq s t = false := by
  cases s with
  | nil => simp at hs
  | cons x xs =>
    cases t with
    | nil => simp at ht
    | cons y ys =>
      have hx : x = c := by simpa using hs
      have hy : y = d := by simpa using ht
      subst hx
      subst hy
      simp [isPreSeq, hne]

theorem beq_head?_ne {s t : List Char} {c d : Char}
    (hs : s.head? = some c) (ht : t.head? = some d) (hne : ¬ c = d) :
    (s == t) = false := by
  refine beq_eq_false_iff_ne.mpr fun h => ?_
  rw [h, ht] at hs
  exact hne (Option.some_inj.mp hs).symm

theorem isPreSeq_host_hostN (s t : List Char) :
    isPreSeq ('H' :: 'o' :: 's' :: 't' :: ' ' :: s)
      ('H' :: 'o' :: 's' :: 't' :: 'N' :: t) = false := by
  simp [isPreSeq]

theorem trimC_eq_self_of {l : List Char} {c d : Char}
    (hh : l.head? = some c) (hc : c.isWhitespace = false)
    (hl : l.getLast? = some d) (hd : d.isWhitespace = false) :
    trimC l = l := by
  unfold trimC
  have h1 : l.dropWhile Char.isWhitespace = l := by
    cases l with
    | nil => rfl
    | cons x t =>
      have hx : x = c := by simpa using hh
      rw [List.dropWhile_cons_of_neg (by simp [hx, hc])]
  rw [h1]
  have h2 : l.reverse.dropWhile Char.isWhitespace = l.reverse := by
    cases hrev : l.reverse with
    | nil => rfl
    | cons x t =>
      have hx : x = d := by
        have h3 : l.reverse.head? = some x := by rw [hrev]; rfl
        rw [List.head?_reverse, hl] at h3
        exact (Option.some_inj.mp h3).symm
      rw [List.dropWhile_cons_of_neg (by simp [hx, hd])]
  rw [h2, List.reverse_reverse]

theorem exists_trimC_head {c : Char} {x l : List Char}
    (hd : l.dropWhile Char.isWhitespace = c :: x)
    (hc : c.isWhitespace = false) :
    ∃ t, trimC l = c :: t := by
  unfold trimC
  rw [hd, show (c :: x).reverse = x.reverse ++ [c] from by simp,
    List.dropWhile_append]
  by_cases he : (x.reverse.dropWhile Char.isWhitespace).isEmpty = true
  · rw [if_pos he, List.dropWhile_cons_of_neg (by simp [hc])]
    exact ⟨[], by simp⟩
  · rw [if_neg he]
    exact ⟨(x.reverse.dropWhile Char.isWhitespace).reverse, by simp⟩

theorem host_marker_cons (b : String) :
    host_marker b
      = 'H' :: 'o' :: 's' :: 't' :: ' '
          :: ("github.com-".data ++ toLowerChars (replaceSpaces b.data)) := rfl

theorem comment_marker_cons (b : String) :
    comment_marker b
      = '#' :: ' '
          :: (b.data ++ " GitHub Account (git-switch managed)".data) := rfl

theorem upsert_empty (a i : String) :
    update_ssh_config a i [] = config_entry a i := by
  unfold update_ssh_config
  rw [show containsSeq ("Host ".data ++ host_alias a) [] = false from rfl]
  simp

theorem comment_marker_ne {a b : String} (hab : ¬ a = b) :
    comment_marker a ≠ comment_marker b := by
  intro h
  unfold comment_marker at h
  have h2 := List.append_cancel_left (List.append_cancel_right h)
  apply hab
  cases a
  cases b
  exact congrArg String.mk h2

theorem comment_marker_getLast (a : String) :
    (comment_marker a).getLast? = some ')' := by
  unfold comment_marker
  rw [List.getLast?_append]
  rfl

theorem trimC_comment_marker (a : String) :
    trimC (comment_marker a) = comment_marker a :=
  trimC_eq_self_of (l := comment_marker a) (c := '#') (d := ')') rfl
    (by decide) (comment_marker_getLast a) (by decide)

theorem host_alias_getLast {a : String}
    (haw : ∀ ch ∈ host_alias a, ch.isWhitespace = false) :
    ∃ d, ("Host ".data ++ host_alias a).getLast? = some d
      ∧ d.isWhitespace = false := by
  rw [List.getLast?_append]
  cases hga : (host_alias a).getLast? with
  | none =>
    have h1 := List.getLast?_eq_none_iff.mp hga
    unfold host_alias at h1
    rcases List.append_eq_nil.mp h1 with ⟨h2, _⟩
    exact absurd h2 (by decide)
  | some d =>
    exact ⟨d, rfl, haw d (getLast?_mem_of_eq hga)⟩

/-- Removal under any name whose alias collides with the stanza's: the whole
`Host` block of the stanza appended by `update_ssh_config a i` on an empty
file is deleted, and only the leading blank line and `a`'s case-sensitive
managed comment survive.  The whitespace hypotheses hold for every name the
validator accepts and every tilde path. -/
theorem remove_collided_stanza (a b i : String)
    (hal : host_alias a = host_alias b)
    (hab : ¬ a = b)
    (haw : ∀ ch ∈ host_alias a, ch.isWhitespace = false)
    (han1 : '\n' ∉ a.data)
    (hi1 : '\n' ∉ i.data) (hi2 : '\r' ∉ i.data) :
    remove_ssh_config_entry b (config_entry a i)
      = '\n' :: comment_marker a := by
  have hentry : config_entry a i
      = joinNL [[], comment_marker a, "Host ".data ++ host_alias a,
          "  HostName github.com".data, "  User git".data,
          "  IdentityFile ".data ++ i.data, "  IdentitiesOnly yes".data,
          []] := by
    have s1 : "\n# ".data = '\n' :: "# ".data := by decide
    have s2 : " GitHub Account (git-switch managed)\nHost ".data
        = " GitHub Account (git-switch managed)".data
          ++ '\n' :: "Host ".data := by decide
    have s3 : "\n  HostName github.com\n  User git\n  IdentityFile ".data
        = '\n' :: ("  HostName github.com".data
            ++ '\n' :: ("  User git".data
              ++ '\n' :: "  IdentityFile ".data)) := by decide
    have s4 : "\n  IdentitiesOnly yes\n".data
        = '\n' :: ("  IdentitiesOnly yes".data ++ ['\n']) := by decide
    simp [config_entry, comment_marker, joinNL, s1, s2, s3, s4,
      List.append_assoc]
  have hlast_idf : ∀ r : Char,
      ("  IdentityFile ".data ++ i.data).getLast? = some r → ¬ r = '\r' := by
    intro r hr
    rw [List.getLast?_append] at hr
    cases hil : i.data.getLast? with
    | none =>
      rw [hil] at hr
      simp at hr
      subst hr
      decide
    | some d =>
      rw [hil] at hr
      simp at hr
      subst hr
      intro hcontra
      exact hi2 (hcontra ▸ getLast?_mem_of_eq hil)
  have hlines : linesOf (config_entry a i)
      = [[], comment_marker a, "Host ".data ++ host_alias a,
          "  HostName github.com".data, "  User git".data,
          "  IdentityFile ".data ++ i.data, "  IdentitiesOnly yes".data] := by
    rw [hentry]
    unfold linesOf
    rw [splitNL_joinNL (by simp) ?hnl, finishLines_eq ?hcr]
    case hnl =>
      intro l hlmem
      simp only [List.mem_cons, List.not_mem_nil, or_false] at hlmem
      rcases hlmem with rfl | rfl | rfl | rfl | rfl | rfl | rfl | rfl
      · simp
      · rw [comment_marker_cons]
        intro hmem
        simp only [List.mem_cons, List.mem_append] at hmem
        rcases hmem with h | h | h | h
        · exact absurd h (by decide)
        · exact absurd h (by decide)
        · exact han1 h
        · exact absurd h (by decide)
      · intro hmem
        rcases List.mem_append.mp hmem with h | h
        · exact absurd h (by decide)
        · have h2 := haw '\n' h
          simp at h2
      · decide
      · decide
      · intro hmem
        rcases List.mem_append.mp hmem with h | h
        · exact absurd h (by decide)
        · exact hi1 h
      · decide
      · simp
    case hcr =>
      intro p hpmem
      simp only [List.mem_cons, List.not_mem_nil, or_false] at hpmem
      rcases hpmem with rfl | rfl | rfl | rfl | rfl | rfl | rfl | rfl
      · simp
      · rw [comment_marker_getLast a]
        simp
      · obtain ⟨d, hd1, hd2⟩ := host_alias_getLast haw
        rw [hd1]
        intro hcontra
        have h2 : d = '\r' := by simpa using hcontra
        rw [h2] at hd2
        simp at hd2
      · decide
      · decide
      · intro hcontra
        exact hlast_idf '\r' hcontra rfl
      · decide
      · simp
    rw [if_pos (by rfl)]
    rfl
  have f0 : isBlockStart b ([] : List Char) = false := rfl
  have fcm : isBlockStart b (comment_marker a) = false := by
    unfold isBlockStart
    rw [trimC_comment_marker a,
      beq_eq_false_iff_ne.mpr (comment_marker_ne hab),
      isPreSeq_head?_ne (s := host_marker b) (t := comment_marker a)
        (c := 'H') (d := '#') (by rw [host_marker_cons]; rfl)
        (by rw [comment_marker_cons]; rfl) (by decide)]
    rfl
  have fhl : isBlockStart b ("Host ".data ++ host_alias a) = true := by
    unfold isBlockStart
    obtain ⟨d, hd1, hd2⟩ := host_alias_getLast haw
    rw [trimC_eq_self_of (l := "Host ".data ++ host_alias a) (c := 'H')
      rfl (by decide) hd1 hd2]
    have hmk : "Host ".data ++ host_alias a = host_marker b := by
      rw [show host_marker b = "Host ".data ++ host_alias b from rfl, hal]
    rw [hmk, isPreSeq_refl]
    simp
  have fhn_bs : isBlockStart b ("  HostName github.com".data) = false := by
    unfold isBlockStart
    rw [show trimC "  HostName github.com".data
        = "HostName github.com".data from by decide]
    rw [beq_head?_ne (s := "HostName github.com".data)
        (t := comment_marker b) (c := 'H') (d := '#') rfl
        (by rw [comment_marker_cons]; rfl) (by decide),
      host_marker_cons,
      show ("HostName github.com".data : List Char)
        = 'H' :: 'o' :: 's' :: 't' :: 'N' :: "ame github.com".data from rfl,
      isPreSeq_host_hostN]
    rfl
  have fug_bs : isBlockStart b ("  User git".data) = false := by
    unfold isBlockStart
    rw [show trimC "  User git".data = "User git".data from by decide]
    rw [beq_head?_ne (s := "User git".data) (t := comment_marker b)
        (c := 'U') (d := '#') rfl (by rw [comment_marker_cons]; rfl)
        (by decide),
      isPreSeq_head?_ne (s := host_marker b) (t := "User git".data)
        (c := 'H') (d := 'U') (by rw [host_marker_cons]; rfl) rfl
        (by decide)]
    rfl
  have fio_bs : isBlockStart b ("  IdentitiesOnly yes".data) = false := by
    unfold isBlockStart
    rw [show trimC "  IdentitiesOnly yes".data
        = "IdentitiesOnly yes".data from by decide]
    rw [beq_head?_ne (s := "IdentitiesOnly yes".data)
        (t := comment_marker b) (c := 'I') (d := '#') rfl
        (by rw [comment_marker_cons]; rfl) (by decide),
      isPreSeq_head?_ne (s := host_marker b)
        (t := "IdentitiesOnly yes".data) (c := 'H') (d := 'I')
        (by rw [host_marker_cons]; rfl) rfl (by decide)]
    rfl
  obtain ⟨tI, htI⟩ : ∃ t, trimC ("  IdentityFile ".data ++ i.data)
      = 'I' :: t :=
    exists_trimC_head
      (by rw [show "  IdentityFile ".data ++ i.data
            = ' ' :: ' ' :: 'I' :: ("dentityFile ".data ++ i.data) from rfl,
          List.dropWhile_cons_of_pos (by decide),
          List.dropWhile_cons_of_pos (by decide),
          List.dropWhile_cons_of_neg (by decide)])
      (by decide)
  have fidf_bs : isBlockStart b ("  IdentityFile ".data ++ i.data) = false := by
    unfold isBlockStart
    rw [htI,
      beq_head?_ne (s := 'I' :: tI) (t := comment_marker b) (c := 'I')
        (d := '#') rfl (by rw [comment_marker_cons]; rfl) (by decide),
      isPreSeq_head?_ne (s := host_marker b) (t := 'I' :: tI) (c := 'H')
        (d := 'I') (by rw [host_marker_cons]; rfl) rfl (by decide)]
    rfl
  have fidf_bd : isBoundary ("  IdentityFile ".data ++ i.data) = false := by
    unfold isBoundary
    rw [htI,
      isPreSeq_head?_ne (s := "Host ".data) (t := 'I' :: tI) (c := 'H')
        (d := 'I') rfl rfl (by decide),
      isPreSeq_head?_ne (s := "# ".data) (t := 'I' :: tI) (c := '#')
        (d := 'I') rfl rfl (by decide)]
    rfl
  have hloop : removeLoop b false
      [[], comment_marker a, "Host ".data ++ host_alias a,
        "  HostName github.com".data, "  User git".data,
        "  IdentityFile ".data ++ i.data, "  IdentitiesOnly yes".data]
      = [[], comment_marker a] := by
    rw [removeLoop_cons_keep _ f0, removeLoop_cons_keep _ fcm,
      removeLoop_cons_start _ _ fhl,
      removeLoop_cons_interior _ fhn_bs (by decide),
      removeLoop_cons_interior _ fug_bs (by decide),
      removeLoop_cons_interior _ fidf_bs fidf_bd,
      removeLoop_cons_interior _ fio_bs (by decide)]
    rfl
  have hne : ¬ trimC (joinNL [[], comment_marker a])
      = trimC (config_entry a i) := by
    intro he
    have h2 := congrArg (List.countP inkP) he
    rw [countP_trimC, countP_trimC, hentry, countP_joinNL, countP_joinNL] at h2
    simp only [List.map_cons, List.sum_cons, List.map_nil, List.sum_nil] at h2
    have h3 : 0 < List.countP inkP (['H', 'o', 's', 't', ' '] ++ host_alias a) :=
      List.countP_pos_iff.mpr
        ⟨'H', List.mem_append.mpr (Or.inl (by decide)), by decide⟩
    omega
  unfold remove_ssh_config_entry
  rw [hlines, hloop, if_neg hne]
  rfl

/-! ### Claim C9: alias derivation is not injective -/

/-- C9.  Host-alias derivation identifies accounts only up to lowercasing and
space replacement: whenever two distinct account names derive the same
alias, an upsert for the second name after an upsert for the first is a
silent no-op on any content, and removal under the second name of the
stanza the first name created deletes that whole `Host` block — only the
leading blank line and the first name's case-sensitive managed comment
survive.  The whitespace hypotheses hold for every name the validator
accepts and every key path. -/
theorem ssh_alias_collision (a b i j : String) (c : List Char)
    (hal : host_alias a = host_alias b)
    (hab : ¬ a = b)
    (haw : ∀ ch ∈ host_alias a, ch.isWhitespace = false)
    (han1 : '\n' ∉ a.data)
    (hi1 : '\n' ∉ i.data) (hi2 : '\r' ∉ i.data) :
    update_ssh_config b j (update_ssh_config a i c) = update_ssh_config a i c
    ∧ remove_ssh_config_entry b (update_ssh_config a i [])
        = '\n' :: comment_marker a := by
  refine ⟨?_, ?_⟩
  · by_cases h : containsSeq ("Host ".data ++ host_alias a) c = true
    · unfold update_ssh_config
      rw [if_pos h, ← hal, if_pos h]
    · unfold update_ssh_config
      rw [if_neg h, ← hal,
        if_pos (containsSeq_append_right (host_line_infix_entry a i) c)]
  · rw [upsert_empty]
    exact remove_collided_stanza a b i hal hab haw han1 hi1 hi2

/-- Witness for C9 at the spec's example names. -/
theorem ssh_alias_collision_witness :
    update_ssh_config "work" "~/k"
        (update_ssh_config "Work" "~/.ssh/id_rsa_work" [])
      = update_ssh_config "Work" "~/.ssh/id_rsa_work" []
    ∧ remove_ssh_config_entry "work"
        (update_ssh_config "Work" "~/.ssh/id_rsa_work" [])
      = "\n# Work GitHub Account (git-switch managed)".data := by
  have h := ssh_alias_collision "Work" "work" "~/.ssh/id_rsa_work" "~/k" []
    (by decide) (by decide) (by decide) (by decide) (by decide) (by decide)
  exact ⟨h.1, h.2⟩

/-! ### src/config.rs: data model and schema migration -/

/-- Model of the `Account` record of `src/config.rs`. -/
structure Account where
  name : String
  username : String
  email : String
  ssh_key_path : String
  additional_ssh_keys : List String
  provider : Option String
  groups : List String
deriving DecidableEq, Repr

/-- Model of the `GlobalSettings` record of `src/config.rs`. -/
structure GlobalSettings where
  default_provider : Option String
  auto_detect_account : Bool
  colored_output : Bool
  show_progress : Bool
deriving DecidableEq, Repr

/-- Model of the `Config` record of `src/config.rs`.  The Rust
`HashMap<String, Account>` is modelled as an association list whose order
stands for the map's (unspecified) iteration order. -/
structure Config where
  accounts : List (String × Account)
  version : String
  settings : GlobalSettings
deriving DecidableEq, Repr

/-- Model of the error kinds of `src/error.rs` that the embedded functions
construct. -/
inductive GitSwitchError where
  | accountExists (name : String)
  | invalidEmail (email : String)
  | other (message : String)
  | sshKeyGeneration (message : String)
  | invalidSshKey (message : String)
  | ioError (message : String)
  | homeDirectoryNotFound
deriving DecidableEq, Repr

/-- Per-account body of the migration loop in `migrate_config`
(`src/config.rs`, lines 155-170): refill the (already empty) list fields and
infer `provider` from the email domain when absent. -/
def migrateAccount (a : Account) : Account :=
  { a with
    additional_ssh_keys :=
      if a.additional_ssh_keys = [] then [] else a.additional_ssh_keys
    groups := if a.groups = [] then [] else a.groups
    provider :=
      match a.provider with
      | some p => some p
      | none =>
        if containsSeq "@github.com".data a.email.data then some "github"
        else if containsSeq "@gitlab.com".data a.email.data then some "gitlab"
        else none }

/-- Model of `migrate_config` (`src/config.rs`, lines 148-177): versions
`""` and `"1.0"` are migrated to `"2.0"`, anything else is untouched.  The
Rust function takes `&mut Config` and always returns `Ok(())`; the model
returns the resulting configuration. -/
def migrate_config (c : Config) : Config :=
  if c.version = "" ∨ c.version = "1.0" then
    { c with
      accounts := c.accounts.map fun p => (p.1, migrateAccount p.2)
      version := "2.0" }
  else c

/-! ### src/validation.rs -/

/-- Restriction of Rust `char::is_alphanumeric` (Unicode `Alphabetic` plus
categories Nd/Nl/No) to code points below `U+0100`; this is the exact
alphanumeric table for ASCII and the Latin-1 supplement, the fragment the
verification exercises.  Code points at `U+0100` and above are mapped to
`false` by this model. -/
def rustIsAlphanumeric (c : Char) : Bool :=
  c.isAlphanum
    || decide (c.toNat = 0xAA) || decide (c.toNat = 0xB5)
    || decide (c.toNat = 0xBA)
    || decide (0xB2 ≤ c.toNat ∧ c.toNat ≤ 0xB3) || decide (c.toNat = 0xB9)
    || decide (0xBC ≤ c.toNat ∧ c.toNat ≤ 0xBE)
    || decide (0xC0 ≤ c.toNat ∧ c.toNat ≤ 0xFF
        ∧ c.toNat ≠ 0xD7 ∧ c.toNat ≠ 0xF7)

/-- UTF-8 byte length of a character sequence: the model of Rust
`str::len`. -/
def utf8Len (l : List Char) : Nat := (l.map Char.utf8Size).sum

/-- Model of `validate_account_name` (`src/validation.rs`, lines 379-400).
Note that the length guard counts UTF-8 bytes (`str::len`) while its error
message speaks of characters. -/
def validate_account_name (name : String) : Except GitSwitchError Unit :=
  if name.data = [] then
    .error (.other "Account name cannot be empty")
  else if 50 < utf8Len name.data then
    .error (.other "Account name cannot be longer than 50 characters")
  else if ¬ (name.data.all fun c =>
      rustIsAlphanumeric c || c == '-' || c == '_' || c == ' ') = true then
    .error (.other
      "Account name can only contain alphanumeric characters, spaces, hyphens, and underscores")
  else
    .ok ()

/-- Model of `validate_username` (`src/validation.rs`, lines 403-417). -/
def validate_username (username : String) : Except GitSwitchError Unit :=
  if username.data = [] then
    .error (.other "Username cannot be empty")
  else if 100 < utf8Len username.data then
    .error (.other "Username cannot be longer than 100 characters")
  else
    .ok ()

/-! ### src/commands.rs: add_account -/

/-- Environment oracles for the effects `add_account` performs: the
`email_address` crate's validity test, filesystem existence of the expanded
key path, and the outcomes of `ssh-keygen`, `validate_ssh_key`,
`save_config` and `update_ssh_config` (`none` means success). -/
structure Env where
  emailValid : String → Bool
  fileExists : String → Bool
  generateKeyErr : String → Option GitSwitchError
  validateKeyErr : String → Option GitSwitchError
  saveErr : Config → Option GitSwitchError
  updateSshErr : String → String → Option GitSwitchError
  home : Option String

deriving instance DecidableEq for Except

/-- Model of `validate_email` (`src/validation.rs`, lines 6-14); the actual
validity predicate lives in the external `email_address` crate and enters
as an oracle. -/
def validate_email (env : Env) (email : String) : Except GitSwitchError Unit :=
  if env.emailValid email then .ok () else .error (.invalidEmail email)

/-- Model of `expand_path` (`src/utils.rs`, lines 8-31); `PathBuf::push` is
rendered as a slash join, which does not affect any claim since the result
is only handed to oracles. -/
def expand_path (home : Option String) (path_str : String) :
    Except GitSwitchError String :=
  if isPreSeq "~".data path_str.data then
    match home with
    | none => .error .homeDirectoryNotFound
    | some h =>
      if 1 < path_str.data.length then
        if isPreSeq "/".data (path_str.data.drop 1)
            || isPreSeq "\\".data (path_str.data.drop 1) then
          if 1 < (path_str.data.drop 1).length then
            .ok (h ++ "/" ++ ⟨path_str.data.drop 2⟩)
          else .ok h
        else .ok (h ++ "/" ++ ⟨path_str.data.drop 1⟩)
      else .ok h
  else .ok path_str

/-- Model of `detect_provider_from_email` (`src/commands.rs`, lines 16-26). -/
def detect_provider_from_email (email : String) : Option String :=
  if containsSeq "@github.com".data email.data
      || containsSeq "@users.noreply.github.com".data email.data then
    some "github"
  else if containsSeq "@gitlab.com".data email.data then some "gitlab"
  else if containsSeq "@bitbucket.org".data email.data then some "bitbucket"
  else none

/-- Model of `HashMap::contains_key` on the association-list accounts map. -/
def contains_key (m : List (String × Account)) (k : String) : Bool :=
  m.any fun p => p.1 == k

/-- Model of `HashMap::insert` on the association-list accounts map. -/
def insertAccount (m : List (String × Account)) (k : String) (v : Account) :
    List (String × Account) :=
  if contains_key m k then m.map fun p => if p.1 == k then (k, v) else p
  else m ++ [(k, v)]

/-- Model of `add_account` (`src/commands.rs`, lines 29-99, up to and
including the `update_ssh_config` call; the remaining lines only print).
The pair returned is the (possibly mutated) configuration together with the
`Result`: Rust mutates the borrowed `Config` in place, so an error arriving
after the `insert` still leaves the inserted account in the caller's map. -/
def add_account (env : Env) (config : Config) (name username email : String)
    (ssh_key_path_opt : Option String) (provider : Option String) :
    Config × Except GitSwitchError Unit :=
  match validate_account_name name with
  | .error e => (config, .error e)
  | .ok _ =>
  match validate_username username with
  | .error e => (config, .error e)
  | .ok _ =>
  match validate_email env email with
  | .error e => (config, .error e)
  | .ok _ =>
  if contains_key config.accounts name then
    (config, .error (.accountExists name))
  else
    let ssh_key_path_str :=
      match ssh_key_path_opt with
      | some custom_path => custom_path
      | none => "~/.ssh/id_rsa_" ++ ⟨toLowerChars (replaceSpaces name.data)⟩
    match expand_path env.home ssh_key_path_str with
    | .error e => (config, .error e)
    | .ok expanded_key_path =>
      let genStep : Option GitSwitchError :=
        if ssh_key_path_opt.isNone && !env.fileExists expanded_key_path then
          env.generateKeyErr expanded_key_path
        else if ssh_key_path_opt.isSome && !env.fileExists expanded_key_path then
          some (.sshKeyGeneration
            ("Specified SSH key path does not exist: " ++ expanded_key_path))
        else if env.fileExists expanded_key_path then
          env.validateKeyErr expanded_key_path
        else none
      match genStep with
      | some e => (config, .error e)
      | none =>
        let account : Account :=
          { name := name
            username := username
            email := email
            ssh_key_path := ssh_key_path_str
            additional_ssh_keys := []
            provider :=
              match provider with
              | some p => some p
              | none => detect_provider_from_email email
            groups := [] }
        let config' :=
          { config with accounts := insertAccount config.accounts name account }
        match env.saveErr config' with
        | some e => (config', .error e)
        | none =>
          match env.updateSshErr name ssh_key_path_str with
          | some e => (config', .error e)
          | none => (config', .ok ())

/-! ### Claim C8: migration is idempotent and only fills new fields -/

/-- C8.  Config schema migration is idempotent: a version-`"2.0"` config is
left untouched, `migrate_config` applied twice equals `migrate_config`
applied once, and the per-account migration changes nothing except the
`provider` field, which it fills from the email domain only when absent. -/
theorem migrate_config_idempotent (c : Config) (a : Account) :
    (c.version = "2.0" → migrate_config c = c)
    ∧ migrate_config (migrate_config c) = migrate_config c
    ∧ migrateAccount a
        = { a with
            provider :=
              match a.provider with
              | some p => some p
              | none =>
                if containsSeq "@github.com".data a.email.data then
                  some "github"
                else if containsSeq "@gitlab.com".data a.email.data then
                  some "gitlab"
                else none } := by
  refine ⟨?_, ?_, ?_⟩
  · intro hv
    unfold migrate_config
    rw [hv]
    rw [if_neg (by decide)]
  · by_cases hv : c.version = "" ∨ c.version = "1.0"
    · unfold migrate_config
      rw [if_pos hv]
      simp
    · unfold migrate_config
      rw [if_neg hv, if_neg hv]
  · unfold migrateAccount
    by_cases h1 : a.additional_ssh_keys = [] <;>
      by_cases h2 : a.groups = [] <;>
        simp [h1, h2]

/-- Witness for C8 at a concrete already-migrated config. -/
theorem migrate_config_idempotent_witness :
    migrate_config
        (Config.mk
          [("work", Account.mk "work" "jdoe" "j@co.com" "~/.ssh/id_rsa_work"
            [] (some "github") [])]
          "2.0" (GlobalSettings.mk none false true true))
      = Config.mk
          [("work", Account.mk "work" "jdoe" "j@co.com" "~/.ssh/id_rsa_work"
            [] (some "github") [])]
          "2.0" (GlobalSettings.mk none false true true) := by
  exact (migrate_config_idempotent
    (Config.mk
      [("work", Account.mk "work" "jdoe" "j@co.com" "~/.ssh/id_rsa_work"
        [] (some "github") [])]
      "2.0" (GlobalSettings.mk none false true true))
    (Account.mk "work" "jdoe" "j@co.com" "~/.ssh/id_rsa_work" [] none [])).1 rfl

/-! ### Claim C7: duplicate account names -/

/-- An oracle environment in which every external step succeeds, every email
is valid and no file exists. -/
def env0 : Env :=
  ⟨fun _ => true, fun _ => false, fun _ => none, fun _ => none,
    fun _ => none, fun _ _ => none, some "/home/u"⟩

/-- C7 (amended).  Provided the name, username and email pass validation,
`add_account` on a config that already contains the key returns an
already-exists error and leaves the configuration unchanged, whatever the
environment does — the duplicate check precedes key-path expansion, key
generation, the insert and the save.  (Input validation runs before the
duplicate check, so invalid inputs yield invalid-input errors instead; see
the counterexample.) -/
theorem add_account_duplicate (env : Env) (config : Config)
    (name username email : String) (k : Option String) (p : Option String)
    (hn : validate_account_name name = .ok ())
    (hu : validate_username username = .ok ())
    (he : env.emailValid email = true)
    (hdup : contains_key config.accounts name = true) :
    add_account env config name username email k p
      = (config, .error (.accountExists name)) := by
  unfold add_account
  rw [hn, hu]
  unfold validate_email
  rw [he]
  simp [hdup]

/-- Witness for C7: adding `"work"` when `"work"` is already stored. -/
theorem add_account_duplicate_witness :
    add_account env0
        (Config.mk
          [("work", Account.mk "work" "jdoe" "j@co.com" "~/.ssh/id_rsa_work"
            [] none [])]
          "2.0" (GlobalSettings.mk none false true true))
        "work" "other" "other@co.com" none none
      = (Config.mk
          [("work", Account.mk "work" "jdoe" "j@co.com" "~/.ssh/id_rsa_work"
            [] none [])]
          "2.0" (GlobalSettings.mk none false true true),
        .error (.accountExists "work")) := by
  exact add_account_duplicate env0 _ "work" "other" "other@co.com" none none
    (by decide) (by decide) rfl (by decide)

/-- C7 counterexample: a config can hold a key that fails name validation
(nothing validates names on load), and then `add_account` with that very
name reports an invalid-input error, not an already-exists error — the
validation step precedes the duplicate check. -/
theorem add_account_duplicate_counterexample :
    contains_key
        (Config.mk
          [("bad name!", Account.mk "bad name!" "jdoe" "j@co.com" "~/k"
            [] none [])]
          "2.0" (GlobalSettings.mk none false true true)).accounts
        "bad name!" = true
    ∧ (add_account env0
        (Config.mk
          [("bad name!", Account.mk "bad name!" "jdoe" "j@co.com" "~/k"
            [] none [])]
          "2.0" (GlobalSettings.mk none false true true))
        "bad name!" "user" "u@co.com" none none).2
      = .error (.other
          "Account name can only contain alphanumeric characters, spaces, hyphens, and underscores")
    ∧ (add_account env0
        (Config.mk
          [("bad name!", Account.mk "bad name!" "jdoe" "j@co.com" "~/k"
            [] none [])]
          "2.0" (GlobalSettings.mk none false true true))
        "bad name!" "user" "u@co.com" none none).2
      ≠ .error (.accountExists "bad name!") := by
  exact ⟨by decide, by decide, by decide⟩

/-! ### Claim C10: account-name validation bounds -/

/-- C10.  The length guard in `validate_account_name` counts UTF-8 bytes,
while its own error message (and the spec) speak of characters: the
26-character name below consists solely of alphanumeric characters and is
nevertheless rejected as "longer than 50 characters" because its UTF-8
encoding occupies 52 bytes; `add_account` therefore also rejects it before
touching any state. -/
theorem account_name_length_counts_bytes :
    validate_account_name "éééééééééééééééééééééééééé"
        = .error (.other "Account name cannot be longer than 50 characters")
    ∧ "éééééééééééééééééééééééééé".data.length = 26
    ∧ ("éééééééééééééééééééééééééé".data.all fun c =>
        rustIsAlphanumeric c || c == '-' || c == '_' || c == ' ') = true
    ∧ utf8Len "éééééééééééééééééééééééééé".data = 52
    ∧ (add_account env0
        (Config.mk [] "2.0" (GlobalSettings.mk none false true true))
        "éééééééééééééééééééééééééé" "user" "u@co.com" none none).2
      = .error (.other "Account name cannot be longer than 50 characters") := by
  exact ⟨by decide, by decide, by decide, by decide, by decide⟩

/-! ### src/detection.rs: URL-based account detection -/

/-- Model of Rust `str::find` for a string pattern: index (in characters,
which coincides with the byte index at every boundary the code slices at)
of the first occurrence. -/
def indexOfSeq (pat : List Char) : List Char → Option Nat
  | [] => if pat.isEmpty then some 0 else none
  | c :: rest =>
    if isPreSeq pat (c :: rest) then some 0
    else (indexOfSeq pat rest).map (· + 1)

/-- Model of Rust `str::find` for a character pattern. -/
def indexOfChar (ch : Char) : List Char → Option Nat
  | [] => none
  | c :: rest =>
    if c = ch then some 0
    else (indexOfChar ch rest).map (· + 1)

/-- Common shape of `extract_github_username`, `extract_gitlab_username`
and `extract_bitbucket_username` (`src/detection.rs`, lines 140-199): find
the hosting domain, then take the first path segment after `':'` (SSH
syntax) or between the first two `'/'` (HTTPS syntax). -/
def extract_after (domain : List Char) (url : List Char) : Option (List Char) :=
  match indexOfSeq domain url with
  | none => none
  | some start =>
    let after := url.drop (start + domain.length)
    match indexOfChar ':' after with
    | some colon_pos =>
      let path_part := after.drop (colon_pos + 1)
      match indexOfChar '/' path_part with
      | some slash_pos => some (path_part.take slash_pos)
      | none => none
    | none =>
      match indexOfChar '/' after with
      | some slash_pos =>
        let path_part := after.drop (slash_pos + 1)
        match indexOfChar '/' path_part with
        | some next_slash => some (path_part.take next_slash)
        | none => none
      | none => none

/-- Model of `extract_github_username`. -/
def extract_github_username (url : List Char) : Option (List Char) :=
  extract_after "github.com".data url

/-- Model of `extract_gitlab_username`. -/
def extract_gitlab_username (url : List Char) : Option (List Char) :=
  extract_after "gitlab.com".data url

/-- Model of `extract_bitbucket_username`. -/
def extract_bitbucket_username (url : List Char) : Option (List Char) :=
  extract_after "bitbucket.org".data url

/-- Provider test performed inside each loop of
`detect_account_for_remote_url`: the stored provider, lowercased, equals
the classified provider name. -/
def provider_matches (acc : Account) (prov : String) : Bool :=
  match acc.provider with
  | some p => toLowerChars p.data == prov.data
  | none => false

/-- One per-provider loop of `detect_account_for_remote_url`: return the
first account (in map-iteration order) whose provider matches, or, failing
that for the account at hand, whose username equals the owner segment
extracted from the URL. -/
def detect_in_block (accounts : List (String × Account)) (prov : String)
    (extract : List Char → Option (List Char)) (u : List Char) :
    Option String :=
  accounts.findSome? fun p =>
    if provider_matches p.2 prov then some p.1
    else
      match extract u with
      | some user => if p.2.username.data == user then some p.1 else none
      | none => none

/-- Model of `detect_account_for_remote_url` (`src/detection.rs`, lines
84-138): lowercase the URL, then run the github, gitlab and bitbucket
blocks in that order, each guarded by a substring test on the domain. -/
def detect_account_for_remote_url (config : Config) (remote_url : String) :
    Option String :=
  match
    (if containsSeq "github.com".data (toLowerChars remote_url.data) then
      detect_in_block config.accounts "github" extract_github_username
        (toLowerChars remote_url.data)
    else none) with
  | some n => some n
  | none =>
    match
      (if containsSeq "gitlab.com".data (toLowerChars remote_url.data) then
        detect_in_block config.accounts "gitlab" extract_gitlab_username
          (toLowerChars remote_url.data)
      else none) with
    | some n => some n
    | none =>
      if containsSeq "bitbucket.org".data (toLowerChars remote_url.data) then
        detect_in_block config.accounts "bitbucket" extract_bitbucket_username
          (toLowerChars remote_url.data)
      else none

/-! ### src/repository.rs: email/name fallback scoring -/

/-- Number of comparisons performed for one account in
`find_matching_account_by_user`; it only depends on which of the committer
email and name are available. -/
def checksCount (email nameo : Option String) : Nat :=
  (if email.isSome then 1 else 0) + (if nameo.isSome then 1 else 0)

/-- Score of one loop iteration of `find_matching_account_by_user`
(`src/repository.rs`, lines 208-238): weight 0.6 for an email match,
weight 0.4 for a name match (against the account's `name` field), scaled
by matches over performed checks; `0` when no check could be performed.
Rust computes this in `f32`; the model uses exact rationals, on which all
values and comparisons the code produces coincide with the `f32` run. -/
def score_account (email nameo : Option String) (acc : Account) : ℚ :=
  let emailPart : ℚ × Nat × Nat :=
    match email with
    | some repo_email =>
      if repo_email = acc.email then ((6 : ℚ)/10, 1, 1) else (0, 0, 1)
    | none => (0, 0, 0)
  let namePart : ℚ × Nat × Nat :=
    match nameo with
    | some repo_name =>
      if repo_name = acc.name then ((4 : ℚ)/10, 1, 1) else (0, 0, 1)
    | none => (0, 0, 0)
  let total_checks := emailPart.2.2 + namePart.2.2
  if 0 < total_checks then
    (emailPart.1 + namePart.1)
      * (((emailPart.2.1 + namePart.2.1 : Nat) : ℚ) / (total_checks : ℚ))
  else 0

/-- The fold of `find_matching_account_by_user`, carrying `best_match` and
`best_confidence`; an account only replaces the best when it performed at
least one check and strictly beats the previous confidence. -/
def fmLoop (email nameo : Option String) :
    List (String × Account) → Option String → ℚ → Option String × ℚ
  | [], best, bestConf => (best, bestConf)
  | p :: rest, best, bestConf =>
    if 0 < checksCount email nameo then
      if bestConf < score_account email nameo p.2 then
        fmLoop email nameo rest (some p.1) (score_account email nameo p.2)
      else fmLoop email nameo rest best bestConf
    else fmLoop email nameo rest best bestConf

/-- Model of `find_matching_account_by_user` (`src/repository.rs`, lines
200-242). -/
def find_matching_account_by_user (config : Config)
    (email nameo : Option String) : Option String × ℚ :=
  fmLoop email nameo config.accounts none 0

/-- Suggestion computation of `analyze_current_repository`
(`src/repository.rs`, lines 176-186): a URL-based detection hit is reported
with confidence 0.9, otherwise the email/name fallback decides. -/
def analyze_suggestion (config : Config) (remote_url : Option String)
    (current_user_email current_user_name : Option String) :
    Option String × ℚ :=
  match remote_url with
  | some url =>
    match detect_account_for_remote_url config url with
    | some account => (some account, (9 : ℚ)/10)
    | none =>
      find_matching_account_by_user config current_user_email current_user_name
  | none =>
    find_matching_account_by_user config current_user_email current_user_name

/-- Combined per-account URL match test: provider equality or owner-segment
equality against the username, in the order the loop checks them. -/
def url_account_match (u : List Char) (prov : String)
    (extract : List Char → Option (List Char)) (acc : Account) : Bool :=
  provider_matches acc prov
    || (match extract u with
        | some user => acc.username.data == user
        | none => false)

theorem detect_body_eq (prov : String)
    (extract : List Char → Option (List Char)) (u : List Char)
    (p : String × Account) :
    (if provider_matches p.2 prov then some p.1
     else
       match extract u with
       | some user => if p.2.username.data == user then some p.1 else none
       | none => none)
      = (if url_account_match u prov extract p.2 then some p.1 else none) := by
  unfold url_account_match
  by_cases hpm : provider_matches p.2 prov = true
  · simp [hpm]
  · cases hex : extract u with
    | none => simp [hpm, hex]
    | some user =>
      by_cases hu : (p.2.username.data == user) = true
      · simp [hpm, hex, hu]
      · simp [hpm, hex, hu]

theorem detect_in_block_eq (accounts : List (String × Account)) (prov : String)
    (extract : List Char → Option (List Char)) (u : List Char) :
    detect_in_block accounts prov extract u
      = accounts.findSome? fun p =>
          if url_account_match u prov extract p.2 then some p.1 else none := by
  unfold detect_in_block
  congr 1
  funext p
  exact detect_body_eq prov extract u p

theorem detect_in_block_first_hit (prov : String)
    (extract : List Char → Option (List Char)) (u : List Char)
    (pre post : List (String × Account)) (n0 : String) (a0 : Account)
    (hpre : ∀ p ∈ pre, url_account_match u prov extract p.2 = false)
    (hhit : url_account_match u prov extract a0 = true) :
    detect_in_block (pre ++ (n0, a0) :: post) prov extract u = some n0 := by
  rw [detect_in_block_eq, List.findSome?_append]
  have h1 : pre.findSome? (fun p =>
      if url_account_match u prov extract p.2 then some p.1 else none) = none :=
    List.findSome?_eq_none_iff.mpr fun p hp => by simp [hpre p hp]
  have h2 : ((n0, a0) :: post).findSome? (fun p =>
      if url_account_match u prov extract p.2 then some p.1 else none)
      = some n0 := by
    rw [List.findSome?_cons_of_isSome] <;> simp [hhit]
  rw [h1, h2]
  rfl

theorem detect_in_block_none {accounts : List (String × Account)}
    {prov : String} {extract : List Char → Option (List Char)} {u : List Char}
    (h : ∀ p ∈ accounts, url_account_match u prov extract p.2 = false) :
    detect_in_block accounts prov extract u = none := by
  rw [detect_in_block_eq]
  exact List.findSome?_eq_none_iff.mpr fun p hp => by simp [h p hp]

theorem detect_arm_none {accounts : List (String × Account)} {prov : String}
    {extract : List Char → Option (List Char)} {u : List Char} (d : List Char)
    (h : ∀ p ∈ accounts, url_account_match u prov extract p.2 = false) :
    (if containsSeq d u then detect_in_block accounts prov extract u
     else none) = none := by
  by_cases hc : containsSeq d u = true
  · rw [if_pos hc]
    exact detect_in_block_none h
  · rw [if_neg hc]

/-! ### Claim C4: URL-based matching -/

/-- C4 (amended).  On a URL whose lowercase form contains a known hosting
domain, the detector returns the first account in map-iteration order that
matches either by provider equality or by URL-owner/username equality for
that domain, and the repository analysis reports it with confidence 0.9;
the domain blocks run in the order github, gitlab, bitbucket, so the later
blocks decide only when every account misses the earlier ones.  Provider
equality is preferred only within a single account, not across the map, so
a username-only match earlier in the iteration wins over a provider match
later in it (see the counterexample). -/
theorem url_match_first_hit (c : Config) (url : String)
    (pre post : List (String × Account)) (n0 : String) (a0 : Account)
    (hacc : c.accounts = pre ++ (n0, a0) :: post) :
    (containsSeq "github.com".data (toLowerChars url.data) = true →
      (∀ p ∈ pre, url_account_match (toLowerChars url.data) "github"
          extract_github_username p.2 = false) →
      url_account_match (toLowerChars url.data) "github"
          extract_github_username a0 = true →
      detect_account_for_remote_url c url = some n0
      ∧ ∀ e nm, analyze_suggestion c (some url) e nm = (some n0, (9 : ℚ)/10))
    ∧ (containsSeq "gitlab.com".data (toLowerChars url.data) = true →
      (∀ p ∈ c.accounts, url_account_match (toLowerChars url.data) "github"
          extract_github_username p.2 = false) →
      (∀ p ∈ pre, url_account_match (toLowerChars url.data) "gitlab"
          extract_gitlab_username p.2 = false) →
      url_account_match (toLowerChars url.data) "gitlab"
          extract_gitlab_username a0 = true →
      detect_account_for_remote_url c url = some n0
      ∧ ∀ e nm, analyze_suggestion c (some url) e nm = (some n0, (9 : ℚ)/10))
    ∧ (containsSeq "bitbucket.org".data (toLowerChars url.data) = true →
      (∀ p ∈ c.accounts, url_account_match (toLowerChars url.data) "github"
          extract_github_username p.2 = false) →
      (∀ p ∈ c.accounts, url_account_match (toLowerChars url.data) "gitlab"
          extract_gitlab_username p.2 = false) →
      (∀ p ∈ pre, url_account_match (toLowerChars url.data) "bitbucket"
          extract_bitbucket_username p.2 = false) →
      url_account_match (toLowerChars url.data) "bitbucket"
          extract_bitbucket_username a0 = true →
      detect_account_for_remote_url c url = some n0
      ∧ ∀ e nm, analyze_suggestion c (some url) e nm
          = (some n0, (9 : ℚ)/10)) := by
  refine ⟨?_, ?_, ?_⟩
  · intro hurl hpre hhit
    have hdet : detect_account_for_remote_url c url = some n0 := by
      unfold detect_account_for_remote_url
      rw [hacc, if_pos hurl, detect_in_block_first_hit _ _ _ _ _ _ _ hpre hhit]
    exact ⟨hdet, fun e nm => by simp [analyze_suggestion, hdet]⟩
  · intro hurl hgh hpre hhit
    have hgh2 : ∀ p ∈ pre ++ (n0, a0) :: post,
        url_account_match (toLowerChars url.data) "github"
          extract_github_username p.2 = false := by
      rw [← hacc]; exact hgh
    have hdet : detect_account_for_remote_url c url = some n0 := by
      unfold detect_account_for_remote_url
      rw [hacc]
      rw [detect_arm_none "github.com".data hgh2, if_pos hurl,
        detect_in_block_first_hit _ _ _ _ _ _ _ hpre hhit]
    exact ⟨hdet, fun e nm => by simp [analyze_suggestion, hdet]⟩
  · intro hurl hgh hgl hpre hhit
    have hgh2 : ∀ p ∈ pre ++ (n0, a0) :: post,
        url_account_match (toLowerChars url.data) "github"
          extract_github_username p.2 = false := by
      rw [← hacc]; exact hgh
    have hgl2 : ∀ p ∈ pre ++ (n0, a0) :: post,
        url_account_match (toLowerChars url.data) "gitlab"
          extract_gitlab_username p.2 = false := by
      rw [← hacc]; exact hgl
    have hdet : detect_account_for_remote_url c url = some n0 := by
      unfold detect_account_for_remote_url
      rw [hacc]
      rw [detect_arm_none "github.com".data hgh2,
        detect_arm_none "gitlab.com".data hgl2, if_pos hurl,
        detect_in_block_first_hit _ _ _ _ _ _ _ hpre hhit]
    exact ⟨hdet, fun e nm => by simp [analyze_suggestion, hdet]⟩

/-- Witness for C4: a provider-tagged account found on a github URL, and a
gitlab-tagged account found on a gitlab URL after the github block finds
nothing. -/
theorem url_match_first_hit_witness :
    detect_account_for_remote_url
        (Config.mk
          [("personal", Account.mk "personal" "alice" "a@x.com" "~/k1"
            [] (some "github") [])]
          "2.0" (GlobalSettings.mk none false true true))
        "https://github.com/someone/repo.git"
      = some "personal"
    ∧ detect_account_for_remote_url
        (Config.mk
          [("glab", Account.mk "glab" "carol" "c@x.com" "~/k3"
            [] (some "gitlab") [])]
          "2.0" (GlobalSettings.mk none false true true))
        "https://gitlab.com/someone/repo.git"
      = some "glab" := by
  refine ⟨?_, ?_⟩
  · exact ((url_match_first_hit
      (Config.mk
        [("personal", Account.mk "personal" "alice" "a@x.com" "~/k1"
          [] (some "github") [])]
        "2.0" (GlobalSettings.mk none false true true))
      "https://github.com/someone/repo.git"
      [] [] "personal"
      (Account.mk "personal" "alice" "a@x.com" "~/k1" [] (some "github") [])
      rfl).1 (by decide) (by intro p hp; cases hp) (by decide)).1
  · exact ((url_match_first_hit
      (Config.mk
        [("glab", Account.mk "glab" "carol" "c@x.com" "~/k3"
          [] (some "gitlab") [])]
        "2.0" (GlobalSettings.mk none false true true))
      "https://gitlab.com/someone/repo.git"
      [] [] "glab"
      (Account.mk "glab" "carol" "c@x.com" "~/k3" [] (some "gitlab") [])
      rfl).2.1 (by decide) (by decide) (by intro p hp; cases hp)
        (by decide)).1

/-- C4 counterexample: with account `"A"` (no provider, username matching
the URL owner) iterated before account `"B"` (provider `github`), the
detector returns `"A"`, which is not a provider-matching account, although
a provider-matching account exists — the claimed global preference for
provider equality does not hold. -/
theorem url_match_counterexample :
    detect_account_for_remote_url
        (Config.mk
          [("A", Account.mk "A acct" "alice" "a@x.com" "~/k1" [] none []),
           ("B", Account.mk "B acct" "bob" "b@x.com" "~/k2" []
             (some "github") [])]
          "2.0" (GlobalSettings.mk none false true true))
        "https://github.com/alice/repo.git"
      = some "A"
    ∧ (Account.mk "A acct" "alice" "a@x.com" "~/k1" [] none []).provider = none
    ∧ provider_matches
        (Account.mk "B acct" "bob" "b@x.com" "~/k2" [] (some "github") [])
        "github" = true
    ∧ analyze_suggestion
        (Config.mk
          [("A", Account.mk "A acct" "alice" "a@x.com" "~/k1" [] none []),
           ("B", Account.mk "B acct" "bob" "b@x.com" "~/k2" []
             (some "github") [])]
          "2.0" (GlobalSettings.mk none false true true))
        (some "https://github.com/alice/repo.git") none none
      = (some "A", (9 : ℚ)/10) := by
  refine ⟨by decide, by decide, by decide, ?_⟩
  have hdet : detect_account_for_remote_url
      (Config.mk
        [("A", Account.mk "A acct" "alice" "a@x.com" "~/k1" [] none []),
         ("B", Account.mk "B acct" "bob" "b@x.com" "~/k2" []
           (some "github") [])]
        "2.0" (GlobalSettings.mk none false true true))
      "https://github.com/alice/repo.git" = some "A" := by decide
  simp [analyze_suggestion, hdet]

/-! ### Claim C5: the weighted email/name formula -/

/-- Specification-side score, written from the spec's words: each comparison
actually performed counts as one check, a matching email contributes 0.6 and
a matching name 0.4, and the score is the sum of matched weights scaled by
(matches / checks performed). -/
def spec_weighted_score (email nameo : Option String) (acc : Account) : ℚ :=
  let checks : Nat :=
    (if email.isSome then 1 else 0) + (if nameo.isSome then 1 else 0)
  let weightSum : ℚ :=
    (if email = some acc.email then (6 : ℚ)/10 else 0)
      + (if nameo = some acc.name then (4 : ℚ)/10 else 0)
  let matchCount : Nat :=
    (if email = some acc.email then 1 else 0)
      + (if nameo = some acc.name then 1 else 0)
  if checks = 0 then 0 else weightSum * ((matchCount : ℚ) / (checks : ℚ))

theorem score_account_eq_spec (email nameo : Option String) (acc : Account) :
    score_account email nameo acc = spec_weighted_score email nameo acc := by
  cases email with
  | none =>
    cases nameo with
    | none => simp [score_account, spec_weighted_score]
    | some n =>
      by_cases hn : n = acc.name <;>
        simp [score_account, spec_weighted_score, hn]
  | some e =>
    cases nameo with
    | none =>
      by_cases he : e = acc.email <;>
        simp [score_account, spec_weighted_score, he]
    | some n =>
      by_cases he : e = acc.email <;> by_cases hn : n = acc.name <;>
        simp [score_account, spec_weighted_score, he, hn]

theorem score_eq_zero_of_checks {email nameo : Option String}
    (acc : Account) (h : checksCount email nameo = 0) :
    score_account email nameo acc = 0 := by
  cases email with
  | some e => simp [checksCount] at h
  | none =>
    cases nameo with
    | some n => simp [checksCount] at h
    | none => simp [score_account]

theorem fmLoop_spec (email nameo : Option String) :
    ∀ (l : List (String × Account)) (best : Option String) (bestConf : ℚ),
      0 ≤ bestConf →
      bestConf ≤ (fmLoop email nameo l best bestConf).2
      ∧ (∀ p ∈ l,
          score_account email nameo p.2 ≤ (fmLoop email nameo l best bestConf).2)
      ∧ (fmLoop email nameo l best bestConf = (best, bestConf)
          ∨ ∃ n acc, (n, acc) ∈ l
              ∧ fmLoop email nameo l best bestConf
                  = (some n, score_account email nameo acc)
              ∧ bestConf < score_account email nameo acc)
  | [], best, bestConf, h0 => by
    refine ⟨by simp [fmLoop], by simp, Or.inl rfl⟩
  | p :: rest, best, bestConf, h0 => by
    by_cases hg : 0 < checksCount email nameo
    · by_cases hlt : bestConf < score_account email nameo p.2
      · have ih := fmLoop_spec email nameo rest (some p.1)
          (score_account email nameo p.2) (le_of_lt (lt_of_le_of_lt h0 hlt))
        have heq : fmLoop email nameo (p :: rest) best bestConf
            = fmLoop email nameo rest (some p.1)
                (score_account email nameo p.2) := by
          simp [fmLoop, hg, hlt]
        rw [heq]
        refine ⟨le_trans (le_of_lt hlt) ih.1, ?_, ?_⟩
        · intro q hq
          rcases List.mem_cons.mp hq with rfl | hq'
          · exact ih.1
          · exact ih.2.1 q hq'
        · rcases ih.2.2 with he | ⟨n, acc, hmem, he, hlt2⟩
          · exact Or.inr ⟨p.1, p.2, by simp, he, hlt⟩
          · exact Or.inr
              ⟨n, acc, List.mem_cons_of_mem _ hmem, he, lt_trans hlt hlt2⟩
      · have ih := fmLoop_spec email nameo rest best bestConf h0
        have heq : fmLoop email nameo (p :: rest) best bestConf
            = fmLoop email nameo rest best bestConf := by
          simp [fmLoop, hg, hlt]
        rw [heq]
        refine ⟨ih.1, ?_, ?_⟩
        · intro q hq
          rcases List.mem_cons.mp hq with rfl | hq'
          · exact le_trans (not_lt.mp hlt) ih.1
          · exact ih.2.1 q hq'
        · rcases ih.2.2 with he | ⟨n, acc, hmem, he, hlt2⟩
          · exact Or.inl he
          · exact Or.inr ⟨n, acc, List.mem_cons_of_mem _ hmem, he, hlt2⟩
    · have ih := fmLoop_spec email nameo rest best bestConf h0
      have heq : fmLoop email nameo (p :: rest) best bestConf
          = fmLoop email nameo rest best bestConf := by
        simp [fmLoop, hg]
      rw [heq]
      have hz : checksCount email nameo = 0 := by omega
      refine ⟨ih.1, ?_, ?_⟩
      · intro q hq
        rcases List.mem_cons.mp hq with rfl | hq'
        · rw [score_eq_zero_of_checks q.2 hz]
          exact le_trans h0 ih.1
        · exact ih.2.1 q hq'
      · rcases ih.2.2 with he | ⟨n, acc, hmem, he, hlt2⟩
        · exact Or.inl he
        · exact Or.inr ⟨n, acc, List.mem_cons_of_mem _ hmem, he, hlt2⟩

theorem fmLoop_zero (email nameo : Option String) :
    ∀ (l : List (String × Account)) (best : Option String),
      (∀ p ∈ l, score_account email nameo p.2 = 0) →
      fmLoop email nameo l best 0 = (best, 0)
  | [], best, _ => rfl
  | p :: rest, best, hsc => by
    have hrest := fmLoop_zero email nameo rest best
      fun q hq => hsc q (List.mem_cons_of_mem _ hq)
    by_cases hg : 0 < checksCount email nameo
    · have hp : score_account email nameo p.2 = 0 := hsc p (by simp)
      simp [fmLoop, hg, hp, hrest]
    · simp [fmLoop, hg, hrest]

/-- C5.  The fallback score of `find_matching_account_by_user` equals the
spec's weighted formula (0.6 for an email match, 0.4 for a name match,
scaled by matches over performed checks), the returned confidence bounds
every account's score and is attained by the returned account (which is
only `some` when its score is positive); in particular an email-only match
scores 0.6 and an email match with a failed name comparison scores 0.3. -/
theorem email_name_fallback_score (c : Config) (email nameo : Option String)
    (acc : Account) (nm : String) :
    score_account email nameo acc = spec_weighted_score email nameo acc
    ∧ (∀ p ∈ c.accounts,
        score_account email nameo p.2
          ≤ (find_matching_account_by_user c email nameo).2)
    ∧ (find_matching_account_by_user c email nameo = (none, 0)
        ∨ ∃ n a2, (n, a2) ∈ c.accounts
            ∧ find_matching_account_by_user c email nameo
                = (some n, score_account email nameo a2)
            ∧ 0 < score_account email nameo a2)
    ∧ score_account (some acc.email) none acc = (6 : ℚ)/10
    ∧ (¬ nm = acc.name →
        score_account (some acc.email) (some nm) acc = (3 : ℚ)/10) := by
  have h := fmLoop_spec email nameo c.accounts none 0 (le_refl 0)
  refine ⟨score_account_eq_spec email nameo acc, h.2.1, ?_, ?_, ?_⟩
  · rcases h.2.2 with he | ⟨n, a2, hmem, he, hlt⟩
    · exact Or.inl he
    · exact Or.inr ⟨n, a2, hmem, he, hlt⟩
  · norm_num [score_account]
  · intro hn
    norm_num [score_account, hn]

/-- Witness for C5 at a concrete account. -/
theorem email_name_fallback_score_witness :
    score_account (some "j@co.com") none
        (Account.mk "work" "jdoe" "j@co.com" "~/k" [] none []) = (6 : ℚ)/10
    ∧ score_account (some "j@co.com") (some "X")
        (Account.mk "work" "jdoe" "j@co.com" "~/k" [] none []) = (3 : ℚ)/10 := by
  have h := email_name_fallback_score
    (Config.mk [] "2.0" (GlobalSettings.mk none false true true))
    (some "j@co.com") none
    (Account.mk "work" "jdoe" "j@co.com" "~/k" [] none []) "X"
  exact ⟨h.2.2.2.1, h.2.2.2.2 (by decide)⟩

/-! ### Claim C6: no evidence, no suggestion -/

/-- C6.  When URL detection finds nothing (or no URL is present) and every
account scores 0 in the email/name fallback — in particular when neither a
committer email nor a name is available — the analysis returns
`(none, 0.0)`. -/
theorem no_evidence_returns_none (c : Config) (remote_url : Option String)
    (email nameo : Option String)
    (hurl : ∀ u, remote_url = some u → detect_account_for_remote_url c u = none)
    (hscore : ∀ p ∈ c.accounts, score_account email nameo p.2 = 0) :
    analyze_suggestion c remote_url email nameo = (none, 0) := by
  have hfb : find_matching_account_by_user c email nameo = (none, 0) :=
    fmLoop_zero email nameo c.accounts none hscore
  cases remote_url with
  | none => simpa [analyze_suggestion] using hfb
  | some u => simp [analyze_suggestion, hurl u rfl, hfb]

/-- Witness for C6: an unclassifiable URL and a non-matching email. -/
theorem no_evidence_returns_none_witness :
    analyze_suggestion
        (Config.mk
          [("work", Account.mk "work" "jdoe" "j@co.com" "~/k" [] none [])]
          "2.0" (GlobalSettings.mk none false true true))
        (some "https://example.org/x/y") (some "zz@x.com") none
      = (none, 0) := by
  apply no_evidence_returns_none
  · intro u hu
    cases hu
    decide
  · intro p hp
    rcases List.mem_cons.mp hp with rfl | hp'
    · simp [score_account]
    · cases hp'

end GitSwitch
